import Mathlib

/-!
Verification of the p-tool parallel copy/archive utility (Go sources under
cmd/).  Go strings are modelled as lists of characters, the filesystem as
explicit finite maps, and the concurrent worker pools by their serialized
foldl equivalents: every property checked here (shared counters, the final
success/failure decision, the multiset of produced entries) is independent
of worker interleaving in the Go code, because those are updated under a
mutex or with atomic increments and each work item is handled exactly once.
-/

namespace PTool

/-- A Go string / relative file path, as its list of characters. -/
abbrev Path := List Char

/-- The reserved manifest entry name used inside archives
(`manifestName` in tar.go / untar.go). -/
def manifestNameChars : Path := ".__p-tool-manifest__.txt".data

/-- Models Go `strings.HasPrefix(s, "./")`. -/
def startsWithDotSlash : Path → Bool
  | '.' :: '/' :: _ => true
  | _ => false

/-- The whitespace test of Go `unicode.IsSpace` (characters removed by
`strings.TrimSpace`): tab, newline, vertical tab, form feed, carriage
return, space, NEL and NBSP. -/
def isSpaceChar (c : Char) : Bool :=
  c == ' ' || c == '\t' || c == '\n' || c == '\x0b' || c == '\x0c' ||
    c == '\r' || c == '\x85' || c == '\xa0'

/-- Models Go `strings.TrimSpace`. -/
def trimSpace (s : List Char) : List Char :=
  ((s.dropWhile isSpaceChar).reverse.dropWhile isSpaceChar).reverse

/-- Models Go `strings.Split(s, sep)` for a one-character separator. -/
def splitOnChar (sep : Char) : List Char → List (List Char)
  | [] => [[]]
  | c :: rest =>
    if c = sep then [] :: splitOnChar sep rest
    else
      match splitOnChar sep rest with
      | [] => [[c]]
      | r :: rs => (c :: r) :: rs

/-- Path formatting shared by `writeManifestToTar` and `writeManifestFile`:
`filepath.ToSlash` (the identity on Unix, where the separator already is
`/`) followed by prepending `./` when absent. -/
def formatManifestPath (relPath : Path) : Path :=
  if startsWithDotSlash relPath then relPath else '.' :: '/' :: relPath

/-- The manifest text built by `writeManifestToTar` (tar.go):
one formatted path per line, each line terminated by a newline. -/
def manifestText (fileList : List Path) : List Char :=
  (fileList.map (fun p => formatManifestPath p ++ ['\n'])).flatten

/-- One line of `parseManifestContent` (untar.go): empty lines are skipped,
other lines are trimmed, skipped when blank, and stripped of a leading
`./` (`filepath.ToSlash` is the identity on Unix). -/
def parseManifestLine (line : List Char) : Option Path :=
  if line.isEmpty then none
  else
    let t := trimSpace line
    if t.isEmpty then none
    else some (if startsWithDotSlash t then t.drop 2 else t)

/-- Models `parseManifestContent` (untar.go): split the content on newlines
and collect the surviving normalized lines in order. -/
def parseManifestContent (content : List Char) : List Path :=
  (splitOnChar '\n' content).filterMap parseManifestLine

/-- The chunk-building loop of `splitFileList` (tar-multi.go): `k` is the
number of iterations left and `remainder` counts how many of the leading
chunks are still owed one extra element (Go's `i < remainder` test, with
`i` replaced by the distance already travelled). -/
def chunksLoop : List Path → Nat → Nat → Nat → List (List Path)
  | _, 0, _, _ => []
  | rest, k + 1, chunkSize, remainder =>
    let sz := if remainder ≠ 0 then chunkSize + 1 else chunkSize
    rest.take sz :: chunksLoop (rest.drop sz) k chunkSize (remainder - 1)

/-- Models `splitFileList` (tar-multi.go).  `count` is clamped below by 1
and above by `len(fileList)`.  The result is `none` exactly when Go's
`chunkSize := len(fileList) / count` divides by zero: for an empty list
the clamped count is 0 and the Go code panics at runtime. -/
def splitFileList (fileList : List Path) (count : Int) : Option (List (List Path)) :=
  let count1 : Int := if count ≤ 0 then 1 else count
  let count2 : Int := if (fileList.length : Int) < count1 then (fileList.length : Int) else count1
  if count2 = 0 then none
  else
    let c : Nat := count2.toNat
    some (chunksLoop fileList c (fileList.length / c) (fileList.length % c))

/-- Number of list elements consumed by `chunksLoop _ k s r`. -/
def sizesSum (k s r : Nat) : Nat := k * s + min r k

/-- Concrete three-element manifest used by witnesses. -/
def exList3 : List Path := [['a'], ['b'], ['c']]

/-- A path for which the manifest text round-trips: non-empty, free of
newlines, no leading or trailing whitespace, and not already starting
with `./`. -/
def goodManifestPath (p : Path) : Bool :=
  !p.isEmpty && decide ('\n' ∉ p) &&
    (match p.head? with | some c => !isSpaceChar c | none => false) &&
    (match p.getLast? with | some c => !isSpaceChar c | none => false) &&
    !startsWithDotSlash p

/-- Concrete two-element manifest of well-formed relative paths. -/
def exGoodList : List Path := ["a.txt".data, "sub/b.txt".data]

/-- State of the tar-building pass of `createTarParallel` (untar-multi.go
variant; tar.go's pipelined variant ends with the same counters and the
same final decision).  `entries` are the frames already appended to the
archive stream (written under the `tarWriter` mutex), `failed` and
`processed` mirror the atomic counters, `writeErr` the first fatal write
error.  The worker pool is serialized here: each work item is handled
exactly once and all recorded quantities are interleaving-independent. -/
structure TarState where
  entries : List (Path × List Char)
  failed : Nat
  processed : Nat
  writeErr : Bool
deriving DecidableEq

/-- One work item of `createTarParallel`.  `fs` maps a relative path to
the content of the source file (`none` = `os.Stat` fails with not-exist),
`wfail` says whether appending the n-th frame to the stream fails (a
header or content write error).  A set `writeErr` makes workers drain the
queue without doing work; a missing source is a counted per-file failure;
otherwise the frame is appended under the lock. -/
def runTarItem (fs : Path → Option (List Char)) (wfail : Nat → Bool)
    (st : TarState) (relPath : Path) : TarState :=
  if st.writeErr then { st with processed := st.processed + 1 }
  else
    match fs relPath with
    | none => { st with failed := st.failed + 1, processed := st.processed + 1 }
    | some content =>
      if wfail st.entries.length then
        { st with writeErr := true, processed := st.processed + 1 }
      else
        { st with entries := st.entries ++ [(relPath, content)],
                  processed := st.processed + 1 }

/-- The state after all workers of `createTarParallel` drained the queue. -/
def tarRun (fs : Path → Option (List Char)) (wfail : Nat → Bool)
    (fileList : List Path) : TarState :=
  fileList.foldl (runTarItem fs wfail) ⟨[], 0, 0, false⟩

/-- The value `createTarParallel` returns to its caller. -/
inductive TarOutcome
  | ok
  | writeFatal
  | someFailed (n : Nat)
deriving DecidableEq

/-- Models `writeManifestToTar` (untar-multi.go / tar.go): append one
final regular-file frame with the reserved name whose content is the
serialized manifest text. -/
def writeManifestToTar (entries : List (Path × List Char)) (fileList : List Path) :
    List (Path × List Char) :=
  entries ++ [(manifestNameChars, manifestText fileList)]

/-- Models the tail of `createTarParallel`: after the workers join, a
recorded fatal write error is returned first; otherwise a non-zero failure
count is returned; only then is the manifest frame appended. -/
def createTarParallel (fs : Path → Option (List Char)) (wfail : Nat → Bool)
    (fileList : List Path) : List (Path × List Char) × TarOutcome :=
  let st := tarRun fs wfail fileList
  if st.writeErr then (st.entries, .writeFatal)
  else if 0 < st.failed then (st.entries, .someFailed st.failed)
  else (writeManifestToTar st.entries fileList, .ok)

/-- State of `copyFilesParallel` (cp.go): `copied` lists the successfully
copied paths, `failed` and `processed` mirror the atomic counters
(`copiedFiles` in the Go code counts every processed item, success or
not). -/
structure CopyState where
  copied : List Path
  failed : Nat
  processed : Nat
deriving DecidableEq

/-- One work item of `copyFilesParallel`: a missing source is a counted
per-file failure, otherwise `copyFile` copies the content; the processed
counter advances unconditionally. -/
def copyStep (fs : Path → Option (List Char)) (st : CopyState) (relPath : Path) :
    CopyState :=
  match fs relPath with
  | none => { st with failed := st.failed + 1, processed := st.processed + 1 }
  | some _ => { st with copied := st.copied ++ [relPath], processed := st.processed + 1 }

/-- The state after all workers of `copyFilesParallel` drained the queue. -/
def copyRun (fs : Path → Option (List Char)) (fileList : List Path) : CopyState :=
  fileList.foldl (copyStep fs) ⟨[], 0, 0⟩

/-- Models `copyFilesParallel` including its final decision: the batch
always completes, and an error is returned iff `failedFiles > 0`. -/
def copyFilesParallel (fs : Path → Option (List Char)) (fileList : List Path) :
    CopyState × Bool :=
  let st := copyRun fs fileList
  (st, decide (0 < st.failed))

/-- A source tree with no files at all. -/
def fsNone : Path → Option (List Char) := fun _ => none

/-- A frame-write oracle under which no write ever fails. -/
def noWriteFail : Nat → Bool := fun _ => false

/-- Concrete single-file manifest used by the C2 counterexample. -/
def exA : Path := "a.txt".data

/-- Source tree for the C6 witness: every file except `missing.txt`
exists and holds one byte. -/
def fsOneMissing : Path → Option (List Char) :=
  fun p => if p = "missing.txt".data then none else some ['x']

/-- Manifest for the C6 witness: one missing path among three. -/
def exListOneMissing : List Path := ["a.txt".data, "missing.txt".data, "b.txt".data]

/-- Tar entry type flags relevant to untar.go's `writeFileEntry`. -/
inductive TypeFlag
  | reg
  | dir
  | symlink
  | hardlink
  | other
deriving DecidableEq

/-- One archive frame as produced by `tarReader.Next()` plus its content. -/
structure Entry where
  name : Path
  typeflag : TypeFlag
  content : List Char
  linkname : Path
deriving DecidableEq

/-- Path normalization at untar.go:133-143: strip a leading `./`
(`filepath.ToSlash` runs only on non-Unix systems). -/
def normalizeEntryName (name : Path) : Path :=
  if startsWithDotSlash name then name.drop 2 else name

/-- The manifest test at untar.go:146: the normalized path equals the
reserved name or merely ends with it. -/
def isManifestName (np : Path) : Bool :=
  np == manifestNameChars || manifestNameChars.isSuffixOf np

/-- Whether a stream entry is treated as the embedded manifest. -/
def isManifestEntry (e : Entry) : Bool := isManifestName (normalizeEntryName e.name)

/-- Go map assignment `m[k] = v`: replace the binding if present, add it
otherwise. -/
def mapInsert (m : List (Path × Entry)) (k : Path) (v : Entry) : List (Path × Entry) :=
  match m with
  | [] => [(k, v)]
  | (k', v') :: rest => if k' = k then (k, v) :: rest else (k', v') :: mapInsert rest k v

/-- Go map lookup `m[k]`. -/
def mapLookup (m : List (Path × Entry)) (k : Path) : Option Entry :=
  match m with
  | [] => none
  | (k', v') :: rest => if k' = k then some v' else mapLookup rest k

/-- Phase-1 state of `extractTarParallel`: the buffered entries keyed by
normalized path, and the captured manifest content (`nil` until a
reserved entry appears; each later reserved entry overwrites it). -/
structure Phase1State where
  fileDataMap : List (Path × Entry)
  manifestContent : Option (List Char)
deriving DecidableEq

/-- Phase-1 handling of one frame (untar.go:124-186): a reserved-name
entry is captured as the manifest and excluded from the buffered set;
every other entry is buffered under its normalized path (content is read
only for regular files; other types have their stream drained). -/
def collectEntry (st : Phase1State) (e : Entry) : Phase1State :=
  let np := normalizeEntryName e.name
  if isManifestName np then { st with manifestContent := some e.content }
  else
    let stored : Entry := { e with content := if e.typeflag = .reg then e.content else [] }
    { st with fileDataMap := mapInsert st.fileDataMap np stored }

/-- Phase 1 over the whole forward-only stream. -/
def collectPhase1 (entries : List Entry) : Phase1State :=
  entries.foldl collectEntry ⟨[], none⟩

/-- Phase-2 state: materialized entries, failure and processed counters. -/
structure Phase2State where
  written : List (Path × Entry)
  failed : Nat
  processed : Nat
deriving DecidableEq

/-- Whether `writeFileEntry` (untar.go:386-488) succeeds for an entry when
every OS call succeeds: regular files, directories, symlinks and
hardlinks are materialized; any other type flag is reported as a per-file
failure. -/
def writeFileEntryOk (e : Entry) : Bool :=
  match e.typeflag with
  | .reg => true
  | .dir => true
  | .symlink => true
  | .hardlink => true
  | .other => false

/-- Whether a manifest path fails during phase 2: it has no buffered
entry, or its buffered entry has an unsupported type. -/
def phase2Fails (m : List (Path × Entry)) (p : Path) : Bool :=
  match mapLookup m p with
  | none => true
  | some e => !writeFileEntryOk e

/-- Phase-2 handling of one manifest path (untar.go:265-287): a path
absent from the buffered set is a counted per-file failure; otherwise the
entry is written (or counted as failed when its type is unsupported); the
processed counter always advances and the loop never aborts. -/
def phase2Step (m : List (Path × Entry)) (st : Phase2State) (relPath : Path) :
    Phase2State :=
  match mapLookup m relPath with
  | none => { st with failed := st.failed + 1, processed := st.processed + 1 }
  | some e =>
    if writeFileEntryOk e then
      { st with written := st.written ++ [(relPath, e)], processed := st.processed + 1 }
    else
      { st with failed := st.failed + 1, processed := st.processed + 1 }

/-- Result of `extractTarParallel` (untar.go:105-311). -/
inductive ExtractResult
  | noManifest
  | emptyManifest
  | completed (st : Phase2State)
deriving DecidableEq

/-- Models `extractTarParallel`: phase 1 buffers the stream and captures
the embedded manifest; a missing manifest or an empty parsed file list is
fatal before any file is materialized; otherwise phase 2 materializes the
manifest paths from the buffered set. -/
def extractTarParallel (entries : List Entry) : ExtractResult :=
  let st1 := collectPhase1 entries
  match st1.manifestContent with
  | none => .noManifest
  | some mc =>
    let fileList := parseManifestContent mc
    if fileList.length = 0 then .emptyManifest
    else .completed (fileList.foldl (phase2Step st1.fileDataMap) ⟨[], 0, 0⟩)

/-- The final error decision of `extractTarParallel`: both fatal cases
return an error, and a completed run returns an error iff
`failedFiles > 0` (untar.go:306-310). -/
def extractReturnsFailure : ExtractResult → Bool
  | .noManifest => true
  | .emptyManifest => true
  | .completed st => decide (0 < st.failed)

/-- A concrete manifest frame whose content lists only `a.txt`. -/
def exManifestEntry : Entry :=
  ⟨manifestNameChars, .reg, "./a.txt\n".data, []⟩

/-- A single ordinary regular frame (not a manifest entry). -/
def exPlainEntry : Entry := ⟨"b.txt".data, .reg, ['y'], []⟩

/-- A resolved real path (`filepath.EvalSymlinks` output), abstracted as
an identifier. -/
abbrev RealPath := Nat

/-- What `os.Stat` reports for a resolved node. -/
inductive NodeKind
  | file
  | dir
deriving DecidableEq

/-- A finite filesystem for `GenerateManifest`: `nodes` is the finite set
of real paths, `kind` classifies each node, and `children` lists a
directory's `os.ReadDir` entries as (name, resolved real path) pairs —
a symlink is an edge whose resolved target may be any node, including an
ancestor (a symlink cycle). -/
structure FS where
  nodes : List RealPath
  kind : RealPath → NodeKind
  children : RealPath → List (String × RealPath)

/-- The loop over `os.ReadDir` entries inside `walkDir`
(manifest.go:801-812), with the recursive call at the next depth passed
in as `walk`: visited-set changes thread left to right and the emitted
manifest lines concatenate in entry order. -/
def walkKids (walk : List RealPath → List String → RealPath →
      Option (List RealPath × List (List String)))
    (visited : List RealPath) (currentPath : List String) :
    List (String × RealPath) → Option (List RealPath × List (List String))
  | [] => some (visited, [])
  | (name, child) :: rest =>
    match walk visited (currentPath ++ [name]) child with
    | none => none
    | some (v', out) =>
      match walkKids walk v' currentPath rest with
      | none => none
      | some (v'', out') => some (v'', out ++ out')

/-- Models `walkDir` inside `GenerateManifest` (manifest.go:744-815) with
an explicit recursion-depth budget `fuel` (`none` = budget exhausted,
i.e. the recursion would nest deeper than `fuel`): a node whose resolved
real path was already visited is skipped, a fresh node is marked visited,
a file emits its relative path (the list of name components from the
root) and a directory recurses over its entries. -/
def walkDirF (fs : FS) : Nat → List RealPath → List String → RealPath →
    Option (List RealPath × List (List String))
  | 0, _, _, _ => none
  | fuel + 1, visited, currentPath, rp =>
    if rp ∈ visited then some (visited, [])
    else
      match fs.kind rp with
      | .file => some (rp :: visited, [currentPath])
      | .dir =>
        walkKids (fun v cp r => walkDirF fs fuel v cp r) (rp :: visited) currentPath
          (fs.children rp)

/-- Models `GenerateManifest`: run the walk from the root with enough
budget for every node to be visited once; the manifest is the list of
emitted relative paths. -/
def GenerateManifest (fs : FS) (root : RealPath) : Option (List (List String)) :=
  (walkDirF fs (fs.nodes.length + 1) [] [] root).map Prod.snd

/-- Number of filesystem nodes not yet visited. -/
def unvisited (fs : FS) (v : List RealPath) : Nat :=
  (fs.nodes.filter (fun n => decide (n ∉ v))).length

/-- The cyclic example filesystem: directories 0 and 1 reference each
other through resolved symlink edges, and each holds one file. -/
def fsCyc : FS where
  nodes := [0, 1, 2, 3]
  kind := fun rp => if rp == 2 || rp == 3 then .file else .dir
  children := fun rp =>
    if rp = 0 then [("sub", 1), ("a.txt", 2)]
    else if rp = 1 then [("loop", 0), ("b.txt", 3)]
    else []

theorem sizesSum_succ (k s r : Nat) :
    sizesSum (k + 1) s r = (if r ≠ 0 then s + 1 else s) + sizesSum k s (r - 1) := by
  by_cases hr : r = 0 <;> simp [sizesSum, hr, Nat.succ_mul] <;> omega

theorem chunksLoop_length (rest : List Path) (k s r : Nat) :
    (chunksLoop rest k s r).length = k := by
  induction k generalizing rest r with
  | zero => rfl
  | succ k ih => simp [chunksLoop, ih]

theorem chunksLoop_flatten (rest : List Path) (k s r : Nat) :
    (chunksLoop rest k s r).flatten = rest.take (sizesSum k s r) := by
  induction k generalizing rest r with
  | zero => simp [chunksLoop, sizesSum]
  | succ k ih =>
    rw [chunksLoop]
    simp only [List.flatten_cons, ih, sizesSum_succ]
    rw [List.take_add]

theorem chunksLoop_sizes (rest : List Path) (k s r : Nat)
    (h : sizesSum k s r ≤ rest.length) :
    ∀ x ∈ chunksLoop rest k s r, x.length = s ∨ x.length = s + 1 := by
  induction k generalizing rest r with
  | zero => simp [chunksLoop]
  | succ k ih =>
    intro x hx
    rw [chunksLoop] at hx
    rw [sizesSum_succ] at h
    rcases List.mem_cons.mp hx with rfl | hx
    · rw [List.length_take]
      by_cases hr : r ≠ 0 <;> simp [hr] at h ⊢ <;> omega
    · refine ih _ _ ?_ x hx
      rw [List.length_drop]
      by_cases hr : r ≠ 0 <;> simp [hr] at h ⊢ <;> omega

/-- C1: for a non-empty manifest `M` and any count `K` in `[1, len M]`,
`splitFileList` succeeds and returns exactly `K` chunks whose lengths sum
to `len M`, whose lengths pairwise differ by at most 1, and whose
concatenation in chunk order is `M` itself. -/
theorem splitFileList_balanced (M : List Path) (K : Int)
    (h1 : 1 ≤ K) (h2 : K ≤ (M.length : Int)) :
    ∃ chunks, splitFileList M K = some chunks ∧
      (chunks.length : Int) = K ∧
      (chunks.map List.length).sum = M.length ∧
      chunks.flatten = M ∧
      ∀ a ∈ chunks, ∀ b ∈ chunks, a.length ≤ b.length + 1 := by
  have e1 : (if K ≤ 0 then (1 : Int) else K) = K := if_neg (by omega)
  have e2 : (if (M.length : Int) < K then (M.length : Int) else K) = K := if_neg (by omega)
  have hc1 : 1 ≤ K.toNat := by omega
  have hc2 : K.toNat ≤ M.length := by omega
  have hcpos : 0 < K.toNat := hc1
  have hsum : sizesSum K.toNat (M.length / K.toNat) (M.length % K.toNat) = M.length := by
    have hdm := Nat.div_add_mod M.length K.toNat
    have hlt := Nat.mod_lt M.length hcpos
    unfold sizesSum
    omega
  have hflat : (chunksLoop M K.toNat (M.length / K.toNat) (M.length % K.toNat)).flatten = M := by
    rw [chunksLoop_flatten, hsum, List.take_length]
  refine ⟨chunksLoop M K.toNat (M.length / K.toNat) (M.length % K.toNat), ?_, ?_, ?_, hflat, ?_⟩
  · unfold splitFileList
    simp only [e1, e2]
    rw [if_neg (by omega)]
  · rw [chunksLoop_length]; omega
  · rw [← List.length_flatten, hflat]
  · intro a ha b hb
    have hsz := chunksLoop_sizes M K.toNat (M.length / K.toNat) (M.length % K.toNat)
      (le_of_eq hsum)
    rcases hsz a ha with h | h <;> rcases hsz b hb with h' | h' <;> omega

/-- Witness for C1 at `M = [['a'], ['b'], ['c']]`, `K = 2`. -/
theorem splitFileList_balanced_witness :
    (1 : Int) ≤ 2 ∧ (2 : Int) ≤ (exList3.length : Int) ∧
      ∃ chunks, splitFileList exList3 2 = some chunks ∧
        (chunks.length : Int) = 2 ∧
        (chunks.map List.length).sum = exList3.length ∧
        chunks.flatten = exList3 ∧
        ∀ a ∈ chunks, ∀ b ∈ chunks, a.length ≤ b.length + 1 :=
  ⟨by norm_num, by norm_num [exList3], splitFileList_balanced exList3 2 (by norm_num)
    (by norm_num [exList3])⟩

/-- C9 counterexample: on the empty file list every count is clamped to 0
and Go's `len(fileList) / count` panics with a division by zero; the model
returns `none` there, so `splitFileList` is not panic-free on every input. -/
theorem splitFileList_empty_input_panics : splitFileList [] 1 = none := rfl

/-- C9 (amended): `splitFileList` terminates without a runtime panic on
every non-empty file list, for every integer count. -/
theorem splitFileList_total_on_nonempty (l : List Path) (c : Int) (h : l ≠ []) :
    (splitFileList l c).isSome = true := by
  have hlen : 1 ≤ l.length := by
    cases l with
    | nil => exact absurd rfl h
    | cons a t => simp
  simp only [splitFileList]
  have hne : ¬ ((if (l.length : Int) < (if c ≤ 0 then 1 else c) then (l.length : Int)
      else (if c ≤ 0 then 1 else c)) = 0) := by
    split <;> split <;> omega
  rw [if_neg hne]
  rfl

/-- Witness for C9's amended theorem at `l = [['a']]`, `c = -5`. -/
theorem splitFileList_total_on_nonempty_witness :
    (splitFileList [['a']] (-5)).isSome = true :=
  splitFileList_total_on_nonempty [['a']] (-5) (by simp)

theorem splitOnChar_append_sep (sep : Char) (x r : List Char) (hx : sep ∉ x) :
    splitOnChar sep (x ++ sep :: r) = x :: splitOnChar sep r := by
  induction x with
  | nil => simp [splitOnChar]
  | cons a t ih =>
    have ha : ¬ a = sep := fun e => hx (e ▸ List.mem_cons_self a t)
    have ht : sep ∉ t := fun m => hx (List.mem_cons_of_mem a m)
    simp only [List.cons_append, splitOnChar, if_neg ha, List.append_eq, ih ht]

theorem splitOnChar_lines (lines : List (List Char))
    (h : ∀ x ∈ lines, '\n' ∉ x) :
    splitOnChar '\n' ((lines.map (fun p => p ++ ['\n'])).flatten) = lines ++ [[]] := by
  induction lines with
  | nil => rfl
  | cons x ls ih =>
    simp only [List.map_cons, List.flatten_cons, List.append_assoc, List.singleton_append]
    rw [splitOnChar_append_sep _ _ _ (h x (List.mem_cons_self x ls)),
      ih (fun y hy => h y (List.mem_cons_of_mem x hy))]
    rfl

theorem dropWhile_eq_self_of_head (l : List Char)
    (h : ∀ c, l.head? = some c → isSpaceChar c = false) :
    l.dropWhile isSpaceChar = l := by
  cases l with
  | nil => rfl
  | cons a t => simp [List.dropWhile_cons, h a rfl]

theorem trimSpace_eq_self (l : List Char)
    (h1 : ∀ c, l.head? = some c → isSpaceChar c = false)
    (h2 : ∀ c, l.getLast? = some c → isSpaceChar c = false) :
    trimSpace l = l := by
  unfold trimSpace
  rw [dropWhile_eq_self_of_head l h1,
    dropWhile_eq_self_of_head l.reverse
      (fun c hc => h2 c (by rwa [List.head?_reverse] at hc)),
    List.reverse_reverse]

theorem parseManifestLine_format (p : Path) (h : goodManifestPath p = true) :
    parseManifestLine (formatManifestPath p) = some p := by
  simp only [goodManifestPath, Bool.and_eq_true, Bool.not_eq_true',
    decide_eq_true_eq] at h
  obtain ⟨⟨⟨⟨hne, hnl⟩, hhead⟩, hlast⟩, hdot⟩ := h
  obtain ⟨a, t, rfl⟩ : ∃ a t, p = a :: t := by
    cases p with
    | nil => simp at hne
    | cons a t => exact ⟨a, t, rfl⟩
  have hfmt : formatManifestPath (a :: t) = '.' :: '/' :: a :: t := by
    simp [formatManifestPath, hdot]
  rw [hfmt]
  have hlast' : ∀ c, (a :: t).getLast? = some c → isSpaceChar c = false := by
    intro c hc
    rw [hc] at hlast
    simpa using hlast
  have htrim : trimSpace ('.' :: '/' :: a :: t) = '.' :: '/' :: a :: t := by
    refine trimSpace_eq_self _ (fun c hc => ?_) (fun c hc => ?_)
    · have hc' : c = '.' := by simpa using hc.symm
      subst hc'
      rfl
    · rw [List.getLast?_cons_cons, List.getLast?_cons_cons] at hc
      exact hlast' c hc
  simp only [parseManifestLine, htrim, List.isEmpty_cons, Bool.false_eq_true,
    if_false, startsWithDotSlash, if_true]
  rfl

theorem filterMap_format (l : List Path) (h : ∀ p ∈ l, goodManifestPath p = true) :
    (l.map formatManifestPath).filterMap parseManifestLine = l := by
  induction l with
  | nil => rfl
  | cons p t ih =>
    simp only [List.map_cons, List.filterMap_cons,
      parseManifestLine_format p (h p (List.mem_cons_self p t))]
    rw [ih (fun q hq => h q (List.mem_cons_of_mem p hq))]

theorem newline_not_mem_format (p : Path) (h : goodManifestPath p = true) :
    '\n' ∉ formatManifestPath p := by
  simp only [goodManifestPath, Bool.and_eq_true, Bool.not_eq_true',
    decide_eq_true_eq] at h
  obtain ⟨⟨⟨⟨hne, hnl⟩, hhead⟩, hlast⟩, hdot⟩ := h
  have hfmt : formatManifestPath p = '.' :: '/' :: p := by
    simp [formatManifestPath, hdot]
  rw [hfmt]
  intro hm
  simp only [List.mem_cons] at hm
  rcases hm with h1 | h1 | h1
  · exact absurd h1 (by decide)
  · exact absurd h1 (by decide)
  · exact hnl h1

/-- C3: the manifest text produced by `writeManifestToTar` parses back, via
`parseManifestContent`, to exactly the original path list whenever every
path is non-empty, newline-free, has no leading or trailing whitespace and
does not already start with `./` — the trailing blank line is ignored and
the added `./` is stripped again. -/
theorem manifest_roundtrip (l : List Path)
    (h : ∀ p ∈ l, goodManifestPath p = true) :
    parseManifestContent (manifestText l) = l := by
  unfold parseManifestContent manifestText
  rw [show l.map (fun p => formatManifestPath p ++ ['\n'])
      = (l.map formatManifestPath).map (fun q => q ++ ['\n']) by
    rw [List.map_map]; rfl]
  rw [splitOnChar_lines _ (by
    intro x hx
    obtain ⟨p, hp, rfl⟩ := List.mem_map.mp hx
    exact newline_not_mem_format p (h p hp))]
  rw [List.filterMap_append, filterMap_format l h]
  simp [parseManifestLine]

/-- Witness for C3 at `l = ["a.txt", "sub/b.txt"]`. -/
theorem manifest_roundtrip_witness :
    (∀ p ∈ exGoodList, goodManifestPath p = true) ∧
      parseManifestContent (manifestText exGoodList) = exGoodList :=
  ⟨by decide, manifest_roundtrip exGoodList (by decide)⟩

theorem tarFold_clean (fs : Path → Option (List Char)) (l : List Path) (st : TarState)
    (h : st.writeErr = false) :
    (l.foldl (runTarItem fs noWriteFail) st).writeErr = false ∧
    (l.foldl (runTarItem fs noWriteFail) st).failed
      = st.failed + (l.filter (fun p => (fs p).isNone)).length ∧
    (l.foldl (runTarItem fs noWriteFail) st).processed = st.processed + l.length ∧
    (l.foldl (runTarItem fs noWriteFail) st).entries.map Prod.fst
      = st.entries.map Prod.fst ++ l.filter (fun p => (fs p).isSome) := by
  induction l generalizing st with
  | nil => simp [h]
  | cons p t ih =>
    rw [List.foldl_cons]
    cases hf : fs p with
    | none =>
      have hstep : runTarItem fs noWriteFail st p
          = { st with failed := st.failed + 1, processed := st.processed + 1 } := by
        simp [runTarItem, h, hf]
      rw [hstep]
      obtain ⟨w, f, pr, e⟩ :=
        ih { st with failed := st.failed + 1, processed := st.processed + 1 } h
      refine ⟨w, ?_, ?_, ?_⟩
      · rw [f]; simp [List.filter_cons, hf]; omega
      · rw [pr]; simp; omega
      · rw [e]; simp [List.filter_cons, hf]
    | some c =>
      have hstep : runTarItem fs noWriteFail st p
          = { st with entries := st.entries ++ [(p, c)],
                      processed := st.processed + 1 } := by
        simp [runTarItem, h, hf, noWriteFail]
      rw [hstep]
      obtain ⟨w, f, pr, e⟩ :=
        ih { st with entries := st.entries ++ [(p, c)], processed := st.processed + 1 } h
      refine ⟨w, ?_, ?_, ?_⟩
      · rw [f]; simp [List.filter_cons, hf]
      · rw [pr]; simp; omega
      · rw [e]; simp [List.filter_cons, hf]

theorem copyFold_props (fs : Path → Option (List Char)) (l : List Path) (st : CopyState) :
    (l.foldl (copyStep fs) st).failed
      = st.failed + (l.filter (fun p => (fs p).isNone)).length ∧
    (l.foldl (copyStep fs) st).processed = st.processed + l.length ∧
    (l.foldl (copyStep fs) st).copied = st.copied ++ l.filter (fun p => (fs p).isSome) := by
  induction l generalizing st with
  | nil => simp
  | cons p t ih =>
    rw [List.foldl_cons]
    cases hf : fs p with
    | none =>
      have hstep : copyStep fs st p
          = { st with failed := st.failed + 1, processed := st.processed + 1 } := by
        simp [copyStep, hf]
      rw [hstep]
      obtain ⟨f, pr, e⟩ :=
        ih { st with failed := st.failed + 1, processed := st.processed + 1 }
      refine ⟨?_, ?_, ?_⟩
      · rw [f]; simp [List.filter_cons, hf]; omega
      · rw [pr]; simp; omega
      · rw [e]; simp [List.filter_cons, hf]
    | some c =>
      have hstep : copyStep fs st p
          = { st with copied := st.copied ++ [p], processed := st.processed + 1 } := by
        simp [copyStep, hf]
      rw [hstep]
      obtain ⟨f, pr, e⟩ :=
        ih { st with copied := st.copied ++ [p], processed := st.processed + 1 }
      refine ⟨?_, ?_, ?_⟩
      · rw [f]; simp [List.filter_cons, hf]
      · rw [pr]; simp; omega
      · rw [e]; simp [List.filter_cons, hf]

/-- C2 counterexample: a single missing source file yields a per-file
failure and no fatal write error, yet `createTarParallel` returns before
`writeManifestToTar` runs, so the archive contains no reserved-name
manifest frame at all. -/
theorem createTar_manifest_skipped_on_file_failure :
    (tarRun fsNone noWriteFail [exA]).writeErr = false
    ∧ (createTarParallel fsNone noWriteFail [exA]).2 = .someFailed 1
    ∧ (createTarParallel fsNone noWriteFail [exA]).1 = [] := by
  decide

/-- C2 (amended): after the workers finish, the manifest is appended as
the final reserved-name frame iff no fatal write error occurred AND no
per-file failure was counted; a per-file failure alone, such as a missing
source file, already prevents the manifest frame from being appended. -/
theorem createTar_manifest_iff_clean (fs : Path → Option (List Char))
    (wfail : Nat → Bool) (fileList : List Path) :
    (createTarParallel fs wfail fileList).1
        = writeManifestToTar (tarRun fs wfail fileList).entries fileList
      ↔ ((tarRun fs wfail fileList).writeErr = false
          ∧ (tarRun fs wfail fileList).failed = 0) := by
  simp only [createTarParallel]
  set st := tarRun fs wfail fileList with hst
  by_cases hw : st.writeErr = true
  · rw [if_pos hw]
    simp only [writeManifestToTar]
    constructor
    · intro he
      have hlen := congrArg List.length he
      simp at hlen
    · rintro ⟨h1, _⟩
      rw [h1] at hw
      cases hw
  · rw [if_neg hw]
    have hw' : st.writeErr = false := by
      cases hsw : st.writeErr
      · rfl
      · exact absurd hsw hw
    by_cases hf : 0 < st.failed
    · rw [if_pos hf]
      simp only [writeManifestToTar]
      constructor
      · intro he
        have hlen := congrArg List.length he
        simp at hlen
      · rintro ⟨_, h2⟩
        omega
    · rw [if_neg hf]
      exact ⟨fun _ => ⟨hw', by omega⟩, fun _ => rfl⟩

/-- C6: when exactly one manifest path is missing from the source tree
(and no write error occurs), the archive writer and the parallel copier
each count exactly one failure, process every queued path, complete all
existing paths, and report the overall operation as failed without
stopping the batch. -/
theorem missing_source_single_failure (fs : Path → Option (List Char))
    (fileList : List Path)
    (h : (fileList.filter (fun p => (fs p).isNone)).length = 1) :
    ((tarRun fs noWriteFail fileList).failed = 1
      ∧ (tarRun fs noWriteFail fileList).processed = fileList.length
      ∧ (tarRun fs noWriteFail fileList).entries.map Prod.fst
          = fileList.filter (fun p => (fs p).isSome)
      ∧ (createTarParallel fs noWriteFail fileList).2 = .someFailed 1)
    ∧ ((copyRun fs fileList).failed = 1
      ∧ (copyRun fs fileList).processed = fileList.length
      ∧ (copyRun fs fileList).copied = fileList.filter (fun p => (fs p).isSome)
      ∧ (copyFilesParallel fs fileList).2 = true) := by
  obtain ⟨w, f, pr, e⟩ := tarFold_clean fs fileList ⟨[], 0, 0, false⟩ rfl
  obtain ⟨f', pr', e'⟩ := copyFold_props fs fileList ⟨[], 0, 0⟩
  have hT : tarRun fs noWriteFail fileList
      = fileList.foldl (runTarItem fs noWriteFail) ⟨[], 0, 0, false⟩ := rfl
  have hC : copyRun fs fileList = fileList.foldl (copyStep fs) ⟨[], 0, 0⟩ := rfl
  have hfailed : (tarRun fs noWriteFail fileList).failed = 1 := by rw [hT, f, h]
  have hwe : (tarRun fs noWriteFail fileList).writeErr = false := by rw [hT]; exact w
  refine ⟨⟨hfailed, ?_, ?_, ?_⟩, ?_, ?_, ?_, ?_⟩
  · rw [hT, pr]; simp
  · rw [hT]
    rw [e]
    rfl
  · simp only [createTarParallel]
    rw [if_neg (by rw [hwe]; simp), if_pos (by rw [hfailed]; omega), hfailed]
  · rw [hC, f', h]
  · rw [hC, pr']; simp
  · rw [hC, e']
    rfl
  · simp only [copyFilesParallel]
    rw [hC, f', h]
    rfl

/-- Witness for C6 on a three-path manifest whose second path is missing
from the source tree. -/
theorem missing_source_single_failure_witness :
    (exListOneMissing.filter (fun p => (fsOneMissing p).isNone)).length = 1
    ∧ (((tarRun fsOneMissing noWriteFail exListOneMissing).failed = 1
      ∧ (tarRun fsOneMissing noWriteFail exListOneMissing).processed
          = exListOneMissing.length
      ∧ (tarRun fsOneMissing noWriteFail exListOneMissing).entries.map Prod.fst
          = exListOneMissing.filter (fun p => (fsOneMissing p).isSome)
      ∧ (createTarParallel fsOneMissing noWriteFail exListOneMissing).2 = .someFailed 1)
    ∧ ((copyRun fsOneMissing exListOneMissing).failed = 1
      ∧ (copyRun fsOneMissing exListOneMissing).processed = exListOneMissing.length
      ∧ (copyRun fsOneMissing exListOneMissing).copied
          = exListOneMissing.filter (fun p => (fsOneMissing p).isSome)
      ∧ (copyFilesParallel fsOneMissing exListOneMissing).2 = true)) :=
  ⟨by decide, missing_source_single_failure fsOneMissing exListOneMissing (by decide)⟩

theorem mapLookup_insert (m : List (Path × Entry)) (k p : Path) (v : Entry) :
    mapLookup (mapInsert m k v) p = if p = k then some v else mapLookup m p := by
  induction m with
  | nil =>
    simp only [mapInsert, mapLookup]
    by_cases hp : p = k
    · subst hp; simp
    · rw [if_neg (fun e => hp e.symm), if_neg hp]
  | cons kv rest ih =>
    obtain ⟨k', v'⟩ := kv
    by_cases hk : k' = k
    · subst hk
      simp only [mapInsert, if_pos rfl, mapLookup]
      by_cases hp : k' = p
      · subst hp
        simp
      · rw [if_neg hp, if_neg (fun e => hp e.symm), if_neg hp]
    · simp only [mapInsert, if_neg hk, mapLookup, ih]
      by_cases hp : k' = p
      · subst hp
        simp [hk]
      · by_cases hq : p = k
        · subst hq
          simp [hk]
        · simp [hp, hq]

theorem collectPhase1_manifest_last (l : List Entry) :
    (collectPhase1 l).manifestContent
      = ((l.filter (fun e => isManifestEntry e)).getLast?).map Entry.content := by
  induction l using List.reverseRecOn with
  | nil => rfl
  | append_singleton t e ih =>
    unfold collectPhase1 at ih ⊢
    rw [List.foldl_append, List.foldl_cons, List.foldl_nil, List.filter_append]
    by_cases hm : isManifestEntry e = true
    · have hm2 : isManifestName (normalizeEntryName e.name) = true := by
        simpa [isManifestEntry] using hm
      simp only [collectEntry, if_pos hm2]
      simp [List.filter_cons, hm, List.getLast?_concat]
    · have hm' : isManifestEntry e = false := by
        cases h : isManifestEntry e
        · rfl
        · exact absurd h hm
      have hm2 : ¬ isManifestName (normalizeEntryName e.name) = true := by
        simpa [isManifestEntry] using hm
      simp only [collectEntry, if_neg hm2]
      simp [List.filter_cons, hm', ih]

theorem collectFold_no_suffix (l : List Entry) (st : Phase1State)
    (h : ∀ q, manifestNameChars.isSuffixOf q = true → mapLookup st.fileDataMap q = none) :
    ∀ q, manifestNameChars.isSuffixOf q = true →
      mapLookup (l.foldl collectEntry st).fileDataMap q = none := by
  induction l generalizing st with
  | nil => exact h
  | cons e t ih =>
    rw [List.foldl_cons]
    apply ih
    intro q hq
    by_cases hm : isManifestName (normalizeEntryName e.name) = true
    · simpa [collectEntry, hm] using h q hq
    · have hq_ne : q ≠ normalizeEntryName e.name := by
        intro he
        subst he
        exact hm (by simp [isManifestName, hq])
      simp only [collectEntry, if_neg hm]
      rw [mapLookup_insert, if_neg hq_ne]
      exact h q hq

/-- C4: extraction is fatal, with nothing materialized, when the stream
carries no reserved-name entry at all; it is also fatal when the embedded
manifest parses to an empty list; phase 2 runs only when a non-empty
embedded manifest was found. -/
theorem extractTar_manifest_gates (entries : List Entry) :
    ((∀ e ∈ entries, isManifestEntry e = false) → extractTarParallel entries = .noManifest)
    ∧ (∀ mc, (collectPhase1 entries).manifestContent = some mc →
        parseManifestContent mc = [] → extractTarParallel entries = .emptyManifest)
    ∧ (∀ st, extractTarParallel entries = .completed st →
        ∃ mc, (collectPhase1 entries).manifestContent = some mc
          ∧ parseManifestContent mc ≠ []) := by
  refine ⟨?_, ?_, ?_⟩
  · intro hno
    have hfil : entries.filter (fun e => isManifestEntry e) = [] := by
      rw [List.filter_eq_nil_iff]
      intro e he
      simp [hno e he]
    have hmc : (collectPhase1 entries).manifestContent = none := by
      rw [collectPhase1_manifest_last, hfil]
      rfl
    simp [extractTarParallel, hmc]
  · intro mc hmc hempty
    simp [extractTarParallel, hmc, hempty]
  · intro st hst
    rcases hmc : (collectPhase1 entries).manifestContent with _ | mc
    · simp [extractTarParallel, hmc] at hst
    · refine ⟨mc, rfl, ?_⟩
      intro hemp
      simp [extractTarParallel, hmc, hemp] at hst

/-- Witness for C4 on a one-frame stream without a manifest entry. -/
theorem extractTar_manifest_gates_witness :
    (∀ e ∈ [exPlainEntry], isManifestEntry e = false)
      ∧ extractTarParallel [exPlainEntry] = .noManifest :=
  ⟨by decide, (extractTar_manifest_gates [exPlainEntry]).1 (by decide)⟩

theorem phase2Fold_props (m : List (Path × Entry)) (l : List Path) (st : Phase2State) :
    (l.foldl (phase2Step m) st).processed = st.processed + l.length
    ∧ (l.foldl (phase2Step m) st).failed
        = st.failed + (l.filter (fun p => phase2Fails m p)).length
    ∧ (l.foldl (phase2Step m) st).written.map Prod.fst
        = st.written.map Prod.fst ++ l.filter (fun p => !phase2Fails m p) := by
  induction l generalizing st with
  | nil => simp
  | cons p t ih =>
    rw [List.foldl_cons]
    rcases hl : mapLookup m p with _ | e
    · have hstep : phase2Step m st p
          = { st with failed := st.failed + 1, processed := st.processed + 1 } := by
        simp [phase2Step, hl]
      have hfail : phase2Fails m p = true := by simp [phase2Fails, hl]
      rw [hstep]
      obtain ⟨pr, f, w⟩ :=
        ih { st with failed := st.failed + 1, processed := st.processed + 1 }
      refine ⟨?_, ?_, ?_⟩
      · rw [pr]; simp; omega
      · rw [f]; simp [List.filter_cons, hfail]; omega
      · rw [w]; simp [List.filter_cons, hfail]
    · by_cases hok : writeFileEntryOk e = true
      · have hstep : phase2Step m st p
            = { st with written := st.written ++ [(p, e)],
                        processed := st.processed + 1 } := by
          simp [phase2Step, hl, hok]
        have hfail : phase2Fails m p = false := by simp [phase2Fails, hl, hok]
        rw [hstep]
        obtain ⟨pr, f, w⟩ :=
          ih { st with written := st.written ++ [(p, e)], processed := st.processed + 1 }
        refine ⟨?_, ?_, ?_⟩
        · rw [pr]; simp; omega
        · rw [f]; simp [List.filter_cons, hfail]
        · rw [w]; simp [List.filter_cons, hfail]
      · have hok' : writeFileEntryOk e = false := by
          cases h : writeFileEntryOk e
          · rfl
          · exact absurd h hok
        have hstep : phase2Step m st p
            = { st with failed := st.failed + 1, processed := st.processed + 1 } := by
          simp [phase2Step, hl, hok']
        have hfail : phase2Fails m p = true := by simp [phase2Fails, hl, hok']
        rw [hstep]
        obtain ⟨pr, f, w⟩ :=
          ih { st with failed := st.failed + 1, processed := st.processed + 1 }
        refine ⟨?_, ?_, ?_⟩
        · rw [pr]; simp; omega
        · rw [f]; simp [List.filter_cons, hfail]; omega
        · rw [w]; simp [List.filter_cons, hfail]

theorem extract_completed_eq (entries : List Entry) (st : Phase2State) (mc : List Char)
    (hmc : (collectPhase1 entries).manifestContent = some mc)
    (hst : extractTarParallel entries = .completed st) :
    st = (parseManifestContent mc).foldl
      (phase2Step (collectPhase1 entries).fileDataMap) ⟨[], 0, 0⟩ := by
  simp only [extractTarParallel, hmc] at hst
  split at hst
  · cases hst
  · cases hst
    rfl

/-- C5: in phase 2 every manifest path is processed (the loop never
aborts), the failure counter equals the number of manifest paths whose
buffered entry is missing or unsupported, the materialized paths are
exactly the remaining manifest paths in order, and the operation's
overall result is a failure iff at least one per-file failure was
counted. -/
theorem extractTar_phase2_per_file (entries : List Entry) (st : Phase2State)
    (mc : List Char)
    (hmc : (collectPhase1 entries).manifestContent = some mc)
    (hst : extractTarParallel entries = .completed st) :
    st.processed = (parseManifestContent mc).length
    ∧ st.failed = ((parseManifestContent mc).filter
        (fun p => phase2Fails (collectPhase1 entries).fileDataMap p)).length
    ∧ st.written.map Prod.fst = (parseManifestContent mc).filter
        (fun p => !phase2Fails (collectPhase1 entries).fileDataMap p)
    ∧ (extractReturnsFailure (.completed st) = true ↔ 0 < st.failed) := by
  have heq := extract_completed_eq entries st mc hmc hst
  obtain ⟨pr, f, w⟩ :=
    phase2Fold_props (collectPhase1 entries).fileDataMap (parseManifestContent mc) ⟨[], 0, 0⟩
  refine ⟨?_, ?_, ?_, ?_⟩
  · rw [heq, pr]; simp
  · rw [heq, f]; simp
  · rw [heq, w]; rfl
  · simp [extractReturnsFailure]

/-- Witness for C5 on a stream holding only the manifest frame: the single
listed path has no buffered entry, is counted as the single failure, the
batch still processes it, and the overall result is a failure. -/
theorem extractTar_phase2_per_file_witness :
    ((collectPhase1 [exManifestEntry]).manifestContent = some "./a.txt\n".data
      ∧ extractTarParallel [exManifestEntry] = .completed ⟨[], 1, 1⟩)
    ∧ ((⟨[], 1, 1⟩ : Phase2State).processed = (parseManifestContent "./a.txt\n".data).length
      ∧ (⟨[], 1, 1⟩ : Phase2State).failed = ((parseManifestContent "./a.txt\n".data).filter
          (fun p => phase2Fails (collectPhase1 [exManifestEntry]).fileDataMap p)).length
      ∧ (⟨[], 1, 1⟩ : Phase2State).written.map Prod.fst
          = (parseManifestContent "./a.txt\n".data).filter
            (fun p => !phase2Fails (collectPhase1 [exManifestEntry]).fileDataMap p)
      ∧ (extractReturnsFailure (.completed ⟨[], 1, 1⟩) = true
          ↔ 0 < (⟨[], 1, 1⟩ : Phase2State).failed)) :=
  ⟨⟨by decide, by decide⟩,
    extractTar_phase2_per_file [exManifestEntry] ⟨[], 1, 1⟩ "./a.txt\n".data
      (by decide) (by decide)⟩

/-- C10: the last stream entry whose normalized path merely ends with the
reserved manifest name supplies the captured manifest content; no path
carrying that suffix is ever buffered in the working set; and no
materialized file of a completed extraction has a path with that suffix. -/
theorem manifest_suffix_capture (entries : List Entry) :
    ((collectPhase1 entries).manifestContent
        = ((entries.filter (fun e => isManifestEntry e)).getLast?).map Entry.content)
    ∧ (∀ p, manifestNameChars.isSuffixOf p = true →
        mapLookup (collectPhase1 entries).fileDataMap p = none)
    ∧ (∀ st, extractTarParallel entries = .completed st →
        ∀ q ∈ st.written, manifestNameChars.isSuffixOf q.1 = false) := by
  refine ⟨collectPhase1_manifest_last entries, ?_, ?_⟩
  · intro p hp
    exact collectFold_no_suffix entries ⟨[], none⟩ (fun q _ => rfl) p hp
  · intro st hst q hq
    rcases hmc : (collectPhase1 entries).manifestContent with _ | mc
    · simp [extractTarParallel, hmc] at hst
    · have heq := extract_completed_eq entries st mc hmc hst
      obtain ⟨pr, f, w⟩ := phase2Fold_props (collectPhase1 entries).fileDataMap
        (parseManifestContent mc) ⟨[], 0, 0⟩
      cases hs : manifestNameChars.isSuffixOf q.1
      · rfl
      · exfalso
        have hmem : q.1 ∈ st.written.map Prod.fst := List.mem_map_of_mem Prod.fst hq
        rw [heq, w] at hmem
        simp only [List.map_nil, List.nil_append] at hmem
        have hfl : phase2Fails (collectPhase1 entries).fileDataMap q.1 = false := by
          have h2 := (List.mem_filter.mp hmem).2
          simpa using h2
        have hnone := collectFold_no_suffix entries ⟨[], none⟩ (fun r _ => rfl) q.1 hs
        have htrue : phase2Fails (collectPhase1 entries).fileDataMap q.1 = true := by
          simp [phase2Fails, collectPhase1, hnone]
        rw [htrue] at hfl
        cases hfl

/-- Witness for C10: the reserved name itself has the manifest suffix and
is absent from the buffered working set of a one-manifest stream. -/
theorem manifest_suffix_capture_witness :
    manifestNameChars.isSuffixOf manifestNameChars = true
      ∧ mapLookup (collectPhase1 [exManifestEntry]).fileDataMap manifestNameChars = none :=
  ⟨by decide,
    (manifest_suffix_capture [exManifestEntry]).2.1 manifestNameChars (by decide)⟩

theorem walkKids_mono
    (walk : List RealPath → List String → RealPath →
      Option (List RealPath × List (List String)))
    (hw : ∀ v cp r res, walk v cp r = some res → ∀ a ∈ v, a ∈ res.1)
    (cs : List (String × RealPath)) :
    ∀ v cp res, walkKids walk v cp cs = some res → ∀ a ∈ v, a ∈ res.1 := by
  induction cs with
  | nil =>
    intro v cp res h
    cases h
    exact fun a ha => ha
  | cons c rest ih =>
    obtain ⟨name, child⟩ := c
    intro v cp res h
    simp only [walkKids] at h
    rcases h1 : walk v (cp ++ [name]) child with _ | ⟨v', out⟩ <;> simp only [h1] at h
    · cases h
    · rcases h2 : walkKids walk v' cp rest with _ | ⟨v'', out'⟩ <;> simp only [h2] at h
      · cases h
      · cases h
        intro a ha
        exact ih v' cp (v'', out') h2 a (hw v (cp ++ [name]) child (v', out) h1 a ha)

theorem walkDirF_mono (fs : FS) :
    ∀ fuel v cp rp res, walkDirF fs fuel v cp rp = some res → ∀ a ∈ v, a ∈ res.1 := by
  intro fuel
  induction fuel with
  | zero => intro v cp rp res h; cases h
  | succ fuel ih =>
    intro v cp rp res h
    rw [walkDirF] at h
    by_cases hv : rp ∈ v
    · rw [if_pos hv] at h
      cases h
      exact fun a ha => ha
    · rw [if_neg hv] at h
      cases hk : fs.kind rp with
      | file =>
        simp only [hk] at h
        cases h
        exact fun a ha => List.mem_cons_of_mem rp ha
      | dir =>
        simp only [hk] at h
        intro a ha
        exact walkKids_mono _ (fun v' cp' r' res' h' => ih v' cp' r' res' h')
          (fs.children rp) (rp :: v) cp res h a (List.mem_cons_of_mem rp ha)

theorem length_filter_le_of_imp (l : List RealPath) (p q : RealPath → Bool)
    (h : ∀ a, q a = true → p a = true) :
    (l.filter q).length ≤ (l.filter p).length := by
  induction l with
  | nil => simp
  | cons a t ih =>
    by_cases hq : q a = true
    · rw [List.filter_cons, List.filter_cons, if_pos hq, if_pos (h a hq)]
      simp only [List.length_cons]
      omega
    · rw [List.filter_cons, List.filter_cons, if_neg hq]
      by_cases hp : p a = true
      · rw [if_pos hp]
        simp only [List.length_cons]
        omega
      · rw [if_neg hp]
        exact ih

theorem unvisited_mono (fs : FS) (v v' : List RealPath) (hsub : ∀ a ∈ v, a ∈ v') :
    unvisited fs v' ≤ unvisited fs v := by
  unfold unvisited
  apply length_filter_le_of_imp
  intro a ha
  simp only [decide_eq_true_eq] at ha ⊢
  exact fun hav => ha (hsub a hav)

theorem length_filter_lt_of_mem (l : List RealPath) (p q : RealPath → Bool)
    (himp : ∀ a, q a = true → p a = true) (a : RealPath) (hal : a ∈ l)
    (hpa : p a = true) (hqa : q a = false) :
    (l.filter q).length < (l.filter p).length := by
  induction l with
  | nil => cases hal
  | cons b t ih =>
    rw [List.filter_cons, List.filter_cons]
    rcases List.mem_cons.mp hal with rfl | hat
    · rw [if_neg (by simp [hqa]), if_pos hpa]
      simp only [List.length_cons]
      have := length_filter_le_of_imp t p q himp
      omega
    · by_cases hqb : q b = true
      · rw [if_pos hqb, if_pos (himp b hqb)]
        simp only [List.length_cons]
        have := ih hat
        omega
      · rw [if_neg hqb]
        by_cases hpb : p b = true
        · rw [if_pos hpb]
          simp only [List.length_cons]
          have := ih hat
          omega
        · rw [if_neg hpb]
          exact ih hat

theorem unvisited_cons_lt (fs : FS) (v : List RealPath) (rp : RealPath)
    (hin : rp ∈ fs.nodes) (hout : rp ∉ v) :
    unvisited fs (rp :: v) < unvisited fs v := by
  unfold unvisited
  refine length_filter_lt_of_mem fs.nodes _ _ ?_ rp hin ?_ ?_
  · intro a ha
    simp only [decide_eq_true_eq] at ha ⊢
    exact fun hav => ha (List.mem_cons_of_mem rp hav)
  · simpa using hout
  · simp

theorem walkKids_isSome (fs : FS)
    (walk : List RealPath → List String → RealPath →
      Option (List RealPath × List (List String)))
    (B : Nat)
    (hmono : ∀ v cp r res, walk v cp r = some res → ∀ a ∈ v, a ∈ res.1)
    (hsucc : ∀ v cp r, r ∈ fs.nodes → unvisited fs v < B → (walk v cp r).isSome = true)
    (cs : List (String × RealPath)) (hcs : ∀ c ∈ cs, c.2 ∈ fs.nodes) :
    ∀ v cp, unvisited fs v < B → (walkKids walk v cp cs).isSome = true := by
  induction cs with
  | nil => intro v cp hv; simp [walkKids]
  | cons c rest ih =>
    intro v cp hv
    obtain ⟨name, child⟩ := c
    have h1 : (walk v (cp ++ [name]) child).isSome = true :=
      hsucc v (cp ++ [name]) child (hcs (name, child) (List.mem_cons_self _ _)) hv
    rcases hw : walk v (cp ++ [name]) child with _ | ⟨v', out⟩
    · rw [hw] at h1; cases h1
    · have hv' : unvisited fs v' < B := by
        have := unvisited_mono fs v v' (hmono v (cp ++ [name]) child (v', out) hw)
        omega
      have h2 := ih (fun c hc => hcs c (List.mem_cons_of_mem _ hc)) v' cp hv'
      rcases hk : walkKids walk v' cp rest with _ | res2
      · rw [hk] at h2; cases h2
      · simp [walkKids, hw, hk]

theorem walkDirF_isSome (fs : FS)
    (hclosed : ∀ rp ∈ fs.nodes, ∀ c ∈ fs.children rp, c.2 ∈ fs.nodes) :
    ∀ fuel v cp rp, rp ∈ fs.nodes → unvisited fs v < fuel →
      (walkDirF fs fuel v cp rp).isSome = true := by
  intro fuel
  induction fuel with
  | zero => intro v cp rp _ h; omega
  | succ fuel ih =>
    intro v cp rp hin hv
    rw [walkDirF]
    by_cases hvis : rp ∈ v
    · simp [if_pos hvis]
    · rw [if_neg hvis]
      cases hk : fs.kind rp with
      | file => simp
      | dir =>
        have hlt : unvisited fs (rp :: v) < fuel := by
          have := unvisited_cons_lt fs v rp hin hvis
          omega
        exact walkKids_isSome fs _ fuel (walkDirF_mono fs fuel)
          (fun v' cp' r' hr' hv' => ih v' cp' r' hr' hv')
          (fs.children rp) (hclosed rp hin) (rp :: v) cp hlt

theorem walkKids_nodup_visited
    (walk : List RealPath → List String → RealPath →
      Option (List RealPath × List (List String)))
    (hpres : ∀ v cp r res, walk v cp r = some res → v.Nodup → res.1.Nodup)
    (cs : List (String × RealPath)) :
    ∀ v cp res, walkKids walk v cp cs = some res → v.Nodup → res.1.Nodup := by
  induction cs with
  | nil =>
    intro v cp res h hv
    cases h
    exact hv
  | cons c rest ih =>
    obtain ⟨name, child⟩ := c
    intro v cp res h hv
    simp only [walkKids] at h
    rcases h1 : walk v (cp ++ [name]) child with _ | ⟨v', out⟩ <;> simp only [h1] at h
    · cases h
    · rcases h2 : walkKids walk v' cp rest with _ | ⟨v'', out'⟩ <;> simp only [h2] at h
      · cases h
      · cases h
        exact ih v' cp (v'', out') h2 (hpres v (cp ++ [name]) child (v', out) h1 hv)

theorem walkDirF_nodup_visited (fs : FS) :
    ∀ fuel v cp rp res, walkDirF fs fuel v cp rp = some res → v.Nodup → res.1.Nodup := by
  intro fuel
  induction fuel with
  | zero => intro v cp rp res h; cases h
  | succ fuel ih =>
    intro v cp rp res h hv
    rw [walkDirF] at h
    by_cases hvis : rp ∈ v
    · rw [if_pos hvis] at h
      cases h
      exact hv
    · rw [if_neg hvis] at h
      cases hk : fs.kind rp with
      | file =>
        simp only [hk] at h
        cases h
        exact List.nodup_cons.mpr ⟨hvis, hv⟩
      | dir =>
        simp only [hk] at h
        exact walkKids_nodup_visited _ (fun v' cp' r' res' h' hv' => ih v' cp' r' res' h' hv')
          (fs.children rp) (rp :: v) cp res h (List.nodup_cons.mpr ⟨hvis, hv⟩)

theorem walkKids_shape
    (walk : List RealPath → List String → RealPath →
      Option (List RealPath × List (List String)))
    (hsh : ∀ v cp r res, walk v cp r = some res → ∀ p ∈ res.2, ∃ s, p = cp ++ s)
    (cs : List (String × RealPath)) :
    ∀ v cp res, walkKids walk v cp cs = some res →
      ∀ p ∈ res.2, ∃ n s, (∃ c, (n, c) ∈ cs) ∧ p = cp ++ n :: s := by
  induction cs with
  | nil =>
    intro v cp res h p hp
    cases h
    cases hp
  | cons c rest ih =>
    obtain ⟨name, child⟩ := c
    intro v cp res h p hp
    simp only [walkKids] at h
    rcases h1 : walk v (cp ++ [name]) child with _ | ⟨v', out⟩ <;> simp only [h1] at h
    · cases h
    · rcases h2 : walkKids walk v' cp rest with _ | ⟨v'', out'⟩ <;> simp only [h2] at h
      · cases h
      · cases h
        rcases List.mem_append.mp hp with hp1 | hp2
        · obtain ⟨s, hs⟩ := hsh v (cp ++ [name]) child (v', out) h1 p hp1
          exact ⟨name, s, ⟨child, List.mem_cons_self _ _⟩, by simp [hs]⟩
        · obtain ⟨n, s, ⟨c', hc'⟩, hps⟩ := ih v' cp (v'', out') h2 p hp2
          exact ⟨n, s, ⟨c', List.mem_cons_of_mem _ hc'⟩, hps⟩

theorem walkDirF_shape (fs : FS) :
    ∀ fuel v cp rp res, walkDirF fs fuel v cp rp = some res →
      ∀ p ∈ res.2, ∃ s, p = cp ++ s := by
  intro fuel
  induction fuel with
  | zero => intro v cp rp res h; cases h
  | succ fuel ih =>
    intro v cp rp res h p hp
    rw [walkDirF] at h
    by_cases hvis : rp ∈ v
    · rw [if_pos hvis] at h
      cases h
      cases hp
    · rw [if_neg hvis] at h
      cases hk : fs.kind rp with
      | file =>
        simp only [hk] at h
        cases h
        have hpc : p = cp := List.mem_singleton.mp hp
        exact ⟨[], by simp [hpc]⟩
      | dir =>
        simp only [hk] at h
        obtain ⟨n, s, _, hps⟩ :=
          walkKids_shape _ (fun v' cp' r' res' h' => ih v' cp' r' res' h')
            (fs.children rp) (rp :: v) cp res h p hp
        exact ⟨n :: s, hps⟩

theorem walkKids_nodup_out (fs : FS)
    (walk : List RealPath → List String → RealPath →
      Option (List RealPath × List (List String)))
    (hsh : ∀ v cp r res, walk v cp r = some res → ∀ p ∈ res.2, ∃ s, p = cp ++ s)
    (hnd : ∀ v cp r, r ∈ fs.nodes → ∀ res, walk v cp r = some res → res.2.Nodup)
    (cs : List (String × RealPath)) (hcs : ∀ c ∈ cs, c.2 ∈ fs.nodes)
    (hnames : (cs.map Prod.fst).Nodup) :
    ∀ v cp res, walkKids walk v cp cs = some res → res.2.Nodup := by
  induction cs with
  | nil =>
    intro v cp res h
    cases h
    exact List.nodup_nil
  | cons c rest ih =>
    obtain ⟨name, child⟩ := c
    intro v cp res h
    simp only [List.map_cons, List.nodup_cons] at hnames
    obtain ⟨hnmem, hnrest⟩ := hnames
    simp only [walkKids] at h
    rcases h1 : walk v (cp ++ [name]) child with _ | ⟨v', out⟩ <;> simp only [h1] at h
    · cases h
    · rcases h2 : walkKids walk v' cp rest with _ | ⟨v'', out'⟩ <;> simp only [h2] at h
      · cases h
      · cases h
        refine List.Nodup.append
          (hnd v (cp ++ [name]) child (hcs _ (List.mem_cons_self _ _)) (v', out) h1)
          (ih (fun c hc => hcs c (List.mem_cons_of_mem _ hc)) hnrest v' cp (v'', out') h2)
          ?_
        intro p hp1 hp2
        obtain ⟨s, hs⟩ := hsh v (cp ++ [name]) child (v', out) h1 p hp1
        obtain ⟨n, s', ⟨c', hc'⟩, hps⟩ :=
          walkKids_shape walk hsh rest v' cp (v'', out') h2 p hp2
        rw [hs] at hps
        have hns : name :: s = n :: s' := by
          have := hps
          rw [List.append_assoc, List.singleton_append] at this
          exact List.append_cancel_left this
        have hname_eq : name = n := (List.cons_eq_cons.mp hns).1
        exact hnmem (hname_eq ▸ List.mem_map_of_mem Prod.fst hc')

theorem walkDirF_nodup_out (fs : FS)
    (hclosed : ∀ rp ∈ fs.nodes, ∀ c ∈ fs.children rp, c.2 ∈ fs.nodes)
    (hnames : ∀ rp ∈ fs.nodes, ((fs.children rp).map Prod.fst).Nodup) :
    ∀ fuel v cp rp, rp ∈ fs.nodes →
      ∀ res, walkDirF fs fuel v cp rp = some res → res.2.Nodup := by
  intro fuel
  induction fuel with
  | zero => intro v cp rp _ res h; cases h
  | succ fuel ih =>
    intro v cp rp hin res h
    rw [walkDirF] at h
    by_cases hvis : rp ∈ v
    · rw [if_pos hvis] at h
      cases h
      exact List.nodup_nil
    · rw [if_neg hvis] at h
      cases hk : fs.kind rp with
      | file =>
        simp only [hk] at h
        cases h
        simp
      | dir =>
        simp only [hk] at h
        exact walkKids_nodup_out fs _
          (fun v' cp' r' res' h' => walkDirF_shape fs fuel v' cp' r' res' h')
          (fun v' cp' r' hr' res' h' => ih v' cp' r' hr' res' h')
          (fs.children rp) (hclosed rp hin) (hnames rp hin) (rp :: v) cp res h

/-- C8: on every well-formed finite filesystem — symlink cycles included,
since a child edge may resolve to any node, ancestors among them — the
`GenerateManifest` walk terminates within a recursion budget of one more
than the node count, the visited set records each resolved real path at
most once, and the produced manifest contains no duplicate entries. -/
theorem generateManifest_terminates_nodup (fs : FS) (root : RealPath)
    (hroot : root ∈ fs.nodes)
    (hclosed : ∀ rp ∈ fs.nodes, ∀ c ∈ fs.children rp, c.2 ∈ fs.nodes)
    (hnames : ∀ rp ∈ fs.nodes, ((fs.children rp).map Prod.fst).Nodup) :
    ∃ visited manifest,
      walkDirF fs (fs.nodes.length + 1) [] [] root = some (visited, manifest)
      ∧ GenerateManifest fs root = some manifest
      ∧ visited.Nodup
      ∧ manifest.Nodup := by
  have hfuel : unvisited fs [] < fs.nodes.length + 1 := by
    unfold unvisited
    have := List.length_filter_le (fun n => decide (n ∉ ([] : List RealPath))) fs.nodes
    omega
  have hsome := walkDirF_isSome fs hclosed (fs.nodes.length + 1) [] [] root hroot hfuel
  rcases hres : walkDirF fs (fs.nodes.length + 1) [] [] root with _ | ⟨visited, manifest⟩
  · rw [hres] at hsome; cases hsome
  · refine ⟨visited, manifest, rfl, ?_, ?_, ?_⟩
    · unfold GenerateManifest
      rw [hres]
      rfl
    · exact walkDirF_nodup_visited fs _ _ _ _ _ hres List.nodup_nil
    · exact walkDirF_nodup_out fs hclosed hnames _ _ _ root hroot _ hres

/-- Witness for C8 on the concrete cyclic filesystem `fsCyc` (directories
0 and 1 reach each other through resolved symlink edges). -/
theorem generateManifest_terminates_nodup_witness :
    (0 ∈ fsCyc.nodes)
    ∧ ∃ visited manifest,
      walkDirF fsCyc (fsCyc.nodes.length + 1) [] [] 0 = some (visited, manifest)
      ∧ GenerateManifest fsCyc 0 = some manifest
      ∧ visited.Nodup
      ∧ manifest.Nodup :=
  ⟨by decide,
    generateManifest_terminates_nodup fsCyc 0 (by decide) (by decide) (by decide)⟩

end PTool
